import Mathlib

/-!
Verification of the PII-encryption and security-audit core of the
projectga-saas backend (`encryption_service.py`, `security_service.py`,
`security_models.py`), as a shallow embedding in Lean 4.

Bytes are modelled as `Nat` (with `< 256` bounds carried as hypotheses
where they matter).  External cryptographic primitives (PBKDF2 key
derivation, the AES-CTR keystream and the GCM authentication tag, SHA-256)
are parameters of the embedding: every theorem below is proved for all
instantiations of those parameters, except where a stated hypothesis
records the guarantee the `cryptography` library provides (e.g. the GCM
tag detecting a flipped ciphertext byte).
-/

set_option maxRecDepth 8000

namespace ProjectGA

/-! ## UTF-8 codec

`encrypt_field` calls `plaintext.encode("utf-8")` and `decrypt_field`
calls `plaintext_bytes.decode("utf-8")` (strict).  Lean `Char`s are
exactly the Unicode scalar values Python strings hold (minus surrogates,
which Lean cannot represent and Python refuses to encode), so the codec
below is the standard UTF-8 encoding on `Char.toNat`.
-/

def utf8EncodeChar (n : Nat) : List Nat :=
  if n < 0x80 then [n]
  else if n < 0x800 then [0xC0 + n / 64, 0x80 + n % 64]
  else if n < 0x10000 then [0xE0 + n / 4096, 0x80 + n / 64 % 64, 0x80 + n % 64]
  else [0xF0 + n / 262144, 0x80 + n / 4096 % 64, 0x80 + n / 64 % 64, 0x80 + n % 64]

def utf8Encode (s : String) : List Nat :=
  s.data.flatMap (fun c => utf8EncodeChar c.toNat)

def isCont (b : Nat) : Bool := 0x80 ≤ b && b < 0xC0

/- Strict UTF-8 decoder (rejects stray continuation bytes, overlong
forms, surrogates and values above U+10FFFF, as Python's strict
`bytes.decode("utf-8")` does). -/
mutual

def utf8DecodeNats : List Nat → Option (List Nat)
  | [] => some []
  | b :: rest =>
    if b < 0x80 then (utf8DecodeNats rest).map (b :: ·)
    else if b < 0xC2 then none
    else if b < 0xE0 then utf8DecCont2 b rest
    else if b < 0xF0 then utf8DecCont3 b rest
    else if b < 0xF5 then utf8DecCont4 b rest
    else none
  termination_by l => l.length

def utf8DecCont2 (b : Nat) : List Nat → Option (List Nat)
  | b1 :: r =>
    if isCont b1 then
      (utf8DecodeNats r).map (((b - 0xC0) * 64 + (b1 - 0x80)) :: ·)
    else none
  | [] => none
  termination_by l => l.length

def utf8DecCont3 (b : Nat) : List Nat → Option (List Nat)
  | b1 :: b2 :: r =>
    if isCont b1 && isCont b2 && (b != 0xE0 || decide (0xA0 ≤ b1)) &&
        (b != 0xED || decide (b1 < 0xA0)) then
      (utf8DecodeNats r).map
        (((b - 0xE0) * 4096 + (b1 - 0x80) * 64 + (b2 - 0x80)) :: ·)
    else none
  | _ => none
  termination_by l => l.length

def utf8DecCont4 (b : Nat) : List Nat → Option (List Nat)
  | b1 :: b2 :: b3 :: r =>
    if isCont b1 && isCont b2 && isCont b3 && (b != 0xF0 || decide (0x90 ≤ b1)) &&
        (b != 0xF4 || decide (b1 < 0x90)) then
      (utf8DecodeNats r).map
        (((b - 0xF0) * 262144 + (b1 - 0x80) * 4096 + (b2 - 0x80) * 64 + (b3 - 0x80)) :: ·)
    else none
  | _ => none
  termination_by l => l.length

end

def utf8Decode (l : List Nat) : Option String :=
  (utf8DecodeNats l).map (fun ns => String.mk (ns.map Char.ofNat))

/-! ## Base64 codec

`encrypt_field` stores `base64.b64encode(salt + nonce + tag + ciphertext)`
and `decrypt_field` / `_try_fallback_decryption` call `base64.b64decode`.
The decoder below implements the standard strict alphabet + padding rules;
(Python's default decoder additionally discards characters outside the
alphabet before decoding, a case none of the modelled inputs exercise). -/

def b64CharOf (n : Nat) : Char :=
  if n < 26 then Char.ofNat (65 + n)
  else if n < 52 then Char.ofNat (97 + (n - 26))
  else if n < 62 then Char.ofNat (48 + (n - 52))
  else if n = 62 then '+'
  else '/'

def b64ValOf (c : Char) : Option Nat :=
  if 'A' ≤ c ∧ c ≤ 'Z' then some (c.toNat - 65)
  else if 'a' ≤ c ∧ c ≤ 'z' then some (c.toNat - 97 + 26)
  else if '0' ≤ c ∧ c ≤ '9' then some (c.toNat - 48 + 52)
  else if c = '+' then some 62
  else if c = '/' then some 63
  else none

def b64EncodeNats : List Nat → List Char
  | a :: b :: c :: rest =>
    b64CharOf (a / 4) :: b64CharOf (a % 4 * 16 + b / 16) :: b64CharOf (b % 16 * 4 + c / 64) ::
      b64CharOf (c % 64) :: b64EncodeNats rest
  | [a, b] => [b64CharOf (a / 4), b64CharOf (a % 4 * 16 + b / 16), b64CharOf (b % 16 * 4), '=']
  | [a] => [b64CharOf (a / 4), b64CharOf (a % 4 * 16), '=', '=']
  | [] => []

def b64DecodeNats : List Char → Option (List Nat)
  | c1 :: c2 :: c3 :: c4 :: rest => do
    let v1 ← b64ValOf c1
    let v2 ← b64ValOf c2
    if c3 = '=' then
      if c4 = '=' ∧ rest = [] then pure [v1 * 4 + v2 / 16] else none
    else do
      let v3 ← b64ValOf c3
      if c4 = '=' then
        if rest = [] then pure [v1 * 4 + v2 / 16, v2 % 16 * 16 + v3 / 4] else none
      else do
        let v4 ← b64ValOf c4
        let tl ← b64DecodeNats rest
        pure ((v1 * 4 + v2 / 16) :: (v2 % 16 * 16 + v3 / 4) :: (v3 % 4 * 64 + v4) :: tl)
  | [] => some []
  | _ => none

def b64EncodeStr (l : List Nat) : String := String.mk (b64EncodeNats l)

def b64DecodeStr (s : String) : Option (List Nat) := b64DecodeNats s.data

/-! ## FieldCipher (`EncryptionService.encrypt_field` / `decrypt_field`)

The external `cryptography` primitives are parameters of the embedding:
`deriveKey` stands for PBKDF2-HMAC-SHA256(master, salt, 100000 iterations);
`ksByte` for the AES-CTR keystream byte at a given position (GCM encrypts
and decrypts by XOR-ing the plaintext/ciphertext against this keystream,
so the same function appears on both paths); `tagOf` for the 16-byte GCM
authentication tag computed from the derived key, nonce and ciphertext
(GCM's decryptor recomputes it and compares with the stored tag).  All
theorems hold for every instantiation of these parameters. -/

structure AesGcm where
  deriveKey : List Nat → List Nat → List Nat
  ksByte : List Nat → List Nat → Nat → Nat
  tagOf : List Nat → List Nat → List Nat → List Nat

/-- The guarantees the `cryptography` library provides for its GCM
primitives: keystream bytes are bytes, and tags are 16-byte strings. -/
def AesGcm.Wf (P : AesGcm) : Prop :=
  (∀ k n i, P.ksByte k n i < 256) ∧
  (∀ k n c, (P.tagOf k n c).length = 16) ∧
  (∀ k n c, ∀ b ∈ P.tagOf k n c, b < 256)

/-- XOR a byte string against a keystream starting at position `i`
(AES-CTR; both GCM encryption and decryption are this operation). -/
def ctrXor (f : Nat → Nat) : Nat → List Nat → List Nat
  | _, [] => []
  | i, b :: rest => (b ^^^ f i) :: ctrXor f (i + 1) rest

/-- Mirrors `EncryptedField` of `encryption_service.py`. -/
structure EncryptedField where
  encrypted_value : String
  encryption_key_id : String
  algorithm : String
  classification : String
deriving DecidableEq

/-- `EncryptionService.encrypt_field`: fresh `salt` (16 bytes) and `nonce`
(12 bytes) are drawn from `secrets.token_bytes` by the source; here they
are explicit arguments.  Stores base64(salt ‖ nonce ‖ tag ‖ ciphertext)
under key id "current". -/
def encryptField (P : AesGcm) (masterKey salt nonce : List Nat) (plaintext : String)
    (classification : String) : EncryptedField :=
  let derivedKey := P.deriveKey masterKey salt
  let ciphertext := ctrXor (P.ksByte derivedKey nonce) 0 (utf8Encode plaintext)
  { encrypted_value :=
      b64EncodeStr (salt ++ nonce ++ P.tagOf derivedKey nonce ciphertext ++ ciphertext),
    encryption_key_id := "current",
    algorithm := "AES-256-GCM",
    classification := classification }

/-- The legacy `key_mapping` dict of `decrypt_field`. -/
def legacyKeyAliases : List (String × String) :=
  [("default", "current"), ("primary", "current"), ("1", "current"), ("master", "current")]

/-- Key resolution of `decrypt_field`: use `key_id` verbatim when present
in `key_versions`, otherwise try the legacy alias map, otherwise fail. -/
def resolveKeyId (keyVersions : List (String × List Nat)) (keyId : String) : Option String :=
  if (keyVersions.lookup keyId).isSome then some keyId
  else
    let mapped := (legacyKeyAliases.lookup keyId).getD keyId
    if (keyVersions.lookup mapped).isSome then some mapped else none

/-- `EncryptionService.decrypt_field` on an `EncryptedField`.  Slicing
offsets (16/12/16) follow the source; the `tag.length < 16` rejection is
the `modes.GCM(nonce, tag)` constructor's `min_tag_length` check, which
the source reaches with a short tag exactly when the decoded data is
shorter than 44 bytes.  Every raised exception is mapped to
`Except.error` (the source wraps them all in `EncryptionError`). -/
def decryptField (P : AesGcm) (keyVersions : List (String × List Nat))
    (f : EncryptedField) : Except String String :=
  match resolveKeyId keyVersions f.encryption_key_id with
  | none => Except.error "Decryption key not found"
  | some keyId =>
    let masterKey := (keyVersions.lookup keyId).getD []
    match b64DecodeStr f.encrypted_value with
    | none => Except.error "Invalid base64 encrypted value"
    | some data =>
      let salt := data.take 16
      let nonce := (data.drop 16).take 12
      let tag := (data.drop 28).take 16
      let ciphertext := data.drop 44
      if tag.length < 16 then Except.error "Decryption failed"
      else
        let derivedKey := P.deriveKey masterKey salt
        if P.tagOf derivedKey nonce ciphertext ≠ tag then Except.error "Decryption failed"
        else
          match utf8Decode (ctrXor (P.ksByte derivedKey nonce) 0 ciphertext) with
          | none => Except.error "UTF-8 decoding failed"
          | some plaintext => Except.ok plaintext

/-- The byte layout `salt ‖ nonce ‖ tag ‖ ciphertext` that the
`encrypted_value` produced by `encrypt_field` base64-decodes to. -/
def gcmLayout (P : AesGcm) (masterKey salt nonce : List Nat) (s : String) : List Nat :=
  let derivedKey := P.deriveKey masterKey salt
  let ciphertext := ctrXor (P.ksByte derivedKey nonce) 0 (utf8Encode s)
  salt ++ nonce ++ P.tagOf derivedKey nonce ciphertext ++ ciphertext

/-- A concrete instantiation of the cryptographic parameters, used to
evaluate the theorems at explicit inputs.  Its tag is the byte sum of
key, nonce and ciphertext, so it detects any single-byte change. -/
def sumGcm : AesGcm where
  deriveKey := fun m s => (m ++ s).take 32
  ksByte := fun k n i => (k.sum + n.sum + i) % 256
  tagOf := fun k n c => List.replicate 15 0 ++ [(k.sum + n.sum + c.sum) % 256]

/-! ## PIIFieldCodec (`EncryptionService.decrypt_pii_fields` /
`_try_fallback_decryption`)

Records are insertion-ordered association lists (Python dicts).  A field
value is a plain string, an encrypted-field map, or something else
(`other`); an encrypted-field map carries optional `encrypted_value` /
`encryption_key_id` entries (absence raises `KeyError` inside
`decrypt_field`, which its catch-all turns into `EncryptionError`). -/

/-- Python `str.startswith`. -/
def strStartsWith (s p : String) : Bool := p.data.isPrefixOf s.data

/-- Python `str.lower` (the role strings involved are ASCII). -/
def strLower (s : String) : String := String.mk (s.data.map Char.toLower)

/-- Python `str.upper` (the field names involved are ASCII). -/
def strUpper (s : String) : String := String.mk (s.data.map Char.toUpper)

structure EncDict where
  encrypted_value : Option String
  encryption_key_id : Option String
deriving DecidableEq

inductive FieldVal where
  | str (s : String)
  | enc (d : EncDict)
  | other
deriving DecidableEq

/-- `decrypt_field` applied to a raw dict (the
`isinstance(encrypted_field, dict)` branch): reads the two keys, then
proceeds exactly as on an `EncryptedField` object. -/
def decryptFieldDict (P : AesGcm) (kv : List (String × List Nat)) (d : EncDict) :
    Except String String :=
  match d.encrypted_value, d.encryption_key_id with
  | some v, some k =>
    decryptField P kv
      { encrypted_value := v, encryption_key_id := k,
        algorithm := "AES-256-GCM", classification := "CONFIDENTIAL" }
  | _, _ => Except.error "KeyError"

/-- Strategy 2 of `_try_fallback_decryption`: retry with the alternative
key ids `["default", "primary", "master", "v1"]`, skipping ids absent
from the key store or equal to the stored id; first success wins. -/
def tryAltKeys (P : AesGcm) (kv : List (String × List Nat)) (d : EncDict) :
    List String → Option String
  | [] => none
  | a :: rest =>
    if (kv.lookup a).isSome ∧ some a ≠ d.encryption_key_id then
      match decryptFieldDict P kv { d with encryption_key_id := some a } with
      | Except.ok s => some s
      | Except.error _ => tryAltKeys P kv d rest
    else tryAltKeys P kv d rest

/-- `EncryptionService._try_fallback_decryption`.  Strategy 1: when the
stored value is non-empty, does not start with "eyJ" and is not valid
base64, treat it as plaintext (if shorter than 200 characters) — this
`return` skips strategy 2.  Otherwise run the alternative-key loop. -/
def tryFallbackDecryption (P : AesGcm) (kv : List (String × List Nat))
    (d : EncDict) : Option String :=
  let ev := d.encrypted_value.getD ""
  if ev ≠ "" ∧ ¬ strStartsWith ev "eyJ" ∧ (b64DecodeStr ev).isNone then
    (if ev.length < 200 then some ev else none)
  else
    tryAltKeys P kv d ["default", "primary", "master", "v1"]

/-- The `field_placeholders` dict of `decrypt_pii_fields`. -/
def fieldPlaceholders : List (String × String) :=
  [("company_name", "Company Name"), ("admin_email", "admin@example.com"),
    ("first_name", "User"), ("last_name", "Name"), ("address_line1", "Address"),
    ("city", "City"), ("phone", "Phone")]

def placeholderFor (name : String) : String :=
  (fieldPlaceholders.lookup name).getD ("[ENCRYPTED_" ++ strUpper name ++ "]")

/-- `result[field_name] = value` on a dict whose key already exists
(assignment keeps the key's position). -/
def setField : List (String × FieldVal) → String → FieldVal → List (String × FieldVal)
  | [], _, _ => []
  | (k, v) :: rest, name, nv =>
    if k = name then (k, nv) :: rest else (k, v) :: setField rest name nv

/-- One iteration of the `decrypt_pii_fields` loop body for one field
name: absent fields, plain-string fields (including kept
"[DECRYPTION_FAILED_" placeholders) and unexpected types are left
unchanged; encrypted maps are decrypted, with fallback, and replaced by
a field-specific placeholder when everything fails (an empty fallback
result is falsy in Python and also falls through to the placeholder). -/
def processPiiField (P : AesGcm) (kv : List (String × List Nat))
    (rec : List (String × FieldVal)) (name : String) : List (String × FieldVal) :=
  match rec.lookup name with
  | none => rec
  | some (FieldVal.str _) => rec
  | some FieldVal.other => rec
  | some (FieldVal.enc d) =>
    match decryptFieldDict P kv d with
    | Except.ok s => setField rec name (FieldVal.str s)
    | Except.error _ =>
      match tryFallbackDecryption P kv d with
      | some v =>
        if v ≠ "" then setField rec name (FieldVal.str v)
        else setField rec name (FieldVal.str (placeholderFor name))
      | none => setField rec name (FieldVal.str (placeholderFor name))

/-- `EncryptionService.decrypt_pii_fields` (it starts from `data.copy()`,
so the input dict is never mutated; here the result is a new list). -/
def decryptPiiFields (P : AesGcm) (kv : List (String × List Nat))
    (data : List (String × FieldVal)) (encrypted_fields : List String) :
    List (String × FieldVal) :=
  encrypted_fields.foldl (processPiiField P kv) data

/-- A 60-character base64 string decoding to 43 bytes: one byte short of
the minimal salt+nonce+tag layout, hence undecryptable under every key. -/
def badB64 : String := "AAAAAAAAAAAAAAAAAAAAAAAAAAAAAAAAAAAAAAAAAAAAAAAAAAAAAAAAAA=="

/-! ## AccessController and role model (`security_models.UserRole`,
`SecurityService.check_permission`) -/

inductive UserRole where
  | SUPER_ADMIN
  | TENANT_ADMIN
  | DISPATCHER
  | TECHNICIAN
  | TECH
  | ACCOUNTANT
  | VIEWER
deriving DecidableEq

/-- The string value of each `UserRole` enum member. -/
def UserRole.value : UserRole → String
  | .SUPER_ADMIN => "super_admin"
  | .TENANT_ADMIN => "tenant_admin"
  | .DISPATCHER => "dispatcher"
  | .TECHNICIAN => "technician"
  | .TECH => "tech"
  | .ACCOUNTANT => "accountant"
  | .VIEWER => "viewer"

/-- `UserRole(role_value)`: direct enum lookup by value. -/
def UserRole.fromString (s : String) : Option UserRole :=
  if s = "super_admin" then some .SUPER_ADMIN
  else if s = "tenant_admin" then some .TENANT_ADMIN
  else if s = "dispatcher" then some .DISPATCHER
  else if s = "technician" then some .TECHNICIAN
  else if s = "tech" then some .TECH
  else if s = "accountant" then some .ACCOUNTANT
  else if s = "viewer" then some .VIEWER
  else none

/-- The `role_mapping` dict of `UserRole.normalize_role`. -/
def roleMapping : List (String × UserRole) :=
  [("tech", .TECHNICIAN), ("technician", .TECHNICIAN), ("super_admin", .SUPER_ADMIN),
    ("tenant_admin", .TENANT_ADMIN), ("dispatcher", .DISPATCHER),
    ("accountant", .ACCOUNTANT), ("viewer", .VIEWER)]

/-- `UserRole.normalize_role`: look the lower-cased value up in the
mapping, fall back to direct enum lookup, else `ValueError` (`none`). -/
def normalizeRole (s : String) : Option UserRole :=
  match roleMapping.lookup (strLower s) with
  | some r => some r
  | none => UserRole.fromString s

/-- The `role_hierarchy` dict of `check_permission`.  Note: the legacy
`TECH` member has no entry. -/
def roleHierarchy : List (UserRole × Nat) :=
  [(.SUPER_ADMIN, 100), (.TENANT_ADMIN, 80), (.DISPATCHER, 60), (.TECHNICIAN, 40),
    (.ACCOUNTANT, 40), (.VIEWER, 20)]

/-- `role_hierarchy.get(role, 0)`. -/
def roleLevel (r : UserRole) : Nat := (roleHierarchy.lookup r).getD 0

/-- The `if tenant_id and user_tenant_id != tenant_id` test: Python
truthiness treats a `None` or empty-string target tenant id as absent. -/
def tenantMismatch (tenant_id user_tenant_id : Option String) : Bool :=
  match tenant_id with
  | some t => decide (t ≠ "") && decide (user_tenant_id ≠ some t)
  | none => false

/-- `SecurityService.check_permission`. -/
def checkPermission (user_role required_role : UserRole)
    (tenant_id user_tenant_id : Option String) : Bool :=
  if user_role = UserRole.SUPER_ADMIN then true
  else if tenantMismatch tenant_id user_tenant_id then false
  else decide (roleLevel user_role ≥ roleLevel required_role)

/-! ## RiskScorer (`SecurityService._calculate_risk_score`)

The two database reads are abstracted by their results: `recentFailures`
is `count_documents` of FAILED_PASSWORD/FAILED_MFA attempts for the
email in the last hour, and `knownDevice` is whether `find_one` found a
prior SUCCESS attempt for the same (email, user_agent) pair.  All
arithmetic is on exactly-representable small values, so `Int` is a
faithful model of the Python float. -/

def calculateRiskScore (recentFailures : Nat) (ipAddress : String)
    (knownDevice : Bool) : Int :=
  let afterFailures : Int := 0 + min ((recentFailures : Int) * 20) 60
  let afterIp :=
    if strStartsWith ipAddress "10." || strStartsWith ipAddress "192.168." then
      afterFailures - 10
    else afterFailures
  let afterDevice := if knownDevice then afterIp else afterIp + 30
  min afterDevice 100

/-! ## AuditLogger (`SecurityService.log_security_event`)

SHA-256 is an abstract parameter `sha`; the chain facts hold for every
choice.  `checksumPayload` is the canonical serialization
`json.dumps({k: v for k, v in log_data.items() if k not in ["id",
"checksum", "timestamp"]}, sort_keys=True, default=str)`: the fixed key
set of `AuditLog` minus those three, rendered in sorted key order.
`previous_log_hash` is set before the checksum is computed, so it is
part of the hashed payload.  The persisted id (`insert_one`'s inserted
id, which `log_security_event` returns) is supplied by the store. -/

structure AuditInput where
  tenant_id : Option String
  user_id : Option String
  session_id : Option String
  action : String
  resource_type : String
  resource_id : Option String
  old_values : Option String
  new_values : Option String
  ip_address : Option String
  user_agent : Option String
  risk_score : Int
  data_classification : String
  retention_date : Option String
  compliance_frameworks : String
deriving DecidableEq, Inhabited

def jsonStr : Option String → String
  | none => "null"
  | some s => "\"" ++ s ++ "\""

def checksumPayload (e : AuditInput) (prev : Option String) : String :=
  "\x7b" ++
    "\"action\": \"" ++ e.action ++ "\", " ++
    "\"compliance_frameworks\": " ++ e.compliance_frameworks ++ ", " ++
    "\"data_classification\": \"" ++ e.data_classification ++ "\", " ++
    "\"ip_address\": " ++ jsonStr e.ip_address ++ ", " ++
    "\"new_values\": " ++ jsonStr e.new_values ++ ", " ++
    "\"old_values\": " ++ jsonStr e.old_values ++ ", " ++
    "\"previous_log_hash\": " ++ jsonStr prev ++ ", " ++
    "\"resource_id\": " ++ jsonStr e.resource_id ++ ", " ++
    "\"resource_type\": \"" ++ e.resource_type ++ "\", " ++
    "\"retention_date\": " ++ jsonStr e.retention_date ++ ", " ++
    "\"risk_score\": " ++ toString e.risk_score ++ ", " ++
    "\"session_id\": " ++ jsonStr e.session_id ++ ", " ++
    "\"tenant_id\": " ++ jsonStr e.tenant_id ++ ", " ++
    "\"user_agent\": " ++ jsonStr e.user_agent ++ ", " ++
    "\"user_id\": " ++ jsonStr e.user_id ++
  "\x7d"

/-- A stored audit row: the persisted id, the entry fields, the chain
link and the tamper checksum. -/
structure AuditEntry where
  id : String
  input : AuditInput
  previous_log_hash : Option String
  checksum : String
deriving DecidableEq, Inhabited

/-- One successful `log_security_event` call: link to the in-process
`_last_audit_hash`, checksum the canonical payload (which includes the
link), persist, and advance the chain state to
`SHA256(inserted_id + checksum)`. -/
def logEvent (sha : String → String) (lastHash : Option String) (inp : AuditInput)
    (insertedId : String) : Option String × AuditEntry :=
  let checksum := sha (checksumPayload inp lastHash)
  (some (sha (insertedId ++ checksum)), ⟨insertedId, inp, lastHash, checksum⟩)

/-- A sequence of successful `log_security_event` calls in one process,
threading `_last_audit_hash` (initially `None`). -/
def runAuditLog (sha : String → String) :
    Option String → List (AuditInput × String) → List AuditEntry
  | _, [] => []
  | st, (inp, insertedId) :: rest =>
    let r := logEvent sha st inp insertedId
    r.2 :: runAuditLog sha r.1 rest

/-- An independent verifier: recompute a stored entry's checksum from
its own fields (all fields except id, checksum, timestamp — including
its `previous_log_hash`) and compare. -/
def verifyChecksum (sha : String → String) (e : AuditEntry) : Bool :=
  e.checksum == sha (checksumPayload e.input e.previous_log_hash)

/-- A concrete stand-in hash used to evaluate the audit-chain theorem. -/
def shaToy (s : String) : String := "#" ++ s ++ "#"

def demoInput : AuditInput :=
  { tenant_id := some "t1", user_id := some "u1", session_id := none,
    action := "login", resource_type := "user", resource_id := none,
    old_values := none, new_values := none, ip_address := some "10.0.0.1",
    user_agent := some "ua", risk_score := 0, data_classification := "internal",
    retention_date := none, compliance_frameworks := "[\"soc2\"]" }

def demoCalls : List (AuditInput × String) :=
  [(demoInput, "idA"), (demoInput, "idB"), (demoInput, "idC")]

end ProjectGA

namespace ProjectGA

theorem b64ValOf_b64CharOf : ∀ n, n < 64 → b64ValOf (b64CharOf n) = some n := by decide

theorem b64CharOf_ne_eq : ∀ n, n < 64 → b64CharOf n ≠ '=' := by decide

theorem b64DecodeNats_encode (l : List Nat) (h : ∀ b ∈ l, b < 256) :
    b64DecodeNats (b64EncodeNats l) = some l := by
  induction l using b64EncodeNats.induct with
  | case1 a b c rest ih =>
    have ha : a < 256 := h a (by simp)
    have hb : b < 256 := h b (by simp)
    have hc : c < 256 := h c (by simp)
    rw [b64EncodeNats.eq_def]
    dsimp only
    rw [b64DecodeNats.eq_def]
    dsimp only
    rw [b64ValOf_b64CharOf _ (by omega), b64ValOf_b64CharOf _ (by omega),
      b64ValOf_b64CharOf _ (by omega), b64ValOf_b64CharOf _ (by omega)]
    simp only [Option.bind_eq_bind, Option.some_bind]
    rw [if_neg (b64CharOf_ne_eq _ (by omega)), if_neg (b64CharOf_ne_eq _ (by omega))]
    rw [ih (fun x hx => h x (by simp [hx]))]
    simp only [Option.some_bind]
    congr 2
    · omega
    congr 1
    · omega
    congr 1
    omega
  | case2 a b =>
    have ha : a < 256 := h a (by simp)
    have hb : b < 256 := h b (by simp)
    rw [b64EncodeNats.eq_def]
    dsimp only
    rw [b64DecodeNats.eq_def]
    dsimp only
    rw [b64ValOf_b64CharOf _ (by omega), b64ValOf_b64CharOf _ (by omega),
      b64ValOf_b64CharOf _ (by omega)]
    simp only [Option.bind_eq_bind, Option.some_bind]
    rw [if_neg (b64CharOf_ne_eq _ (by omega))]
    simp only [if_true]
    congr 2
    · omega
    congr 1
    omega
  | case3 a =>
    have ha : a < 256 := h a (by simp)
    rw [b64EncodeNats.eq_def]
    dsimp only
    rw [b64DecodeNats.eq_def]
    dsimp only
    rw [b64ValOf_b64CharOf _ (by omega), b64ValOf_b64CharOf _ (by omega)]
    simp only [Option.bind_eq_bind, Option.some_bind]
    simp only [if_true, and_self]
    congr 2
    omega
  | case4 =>
    rw [b64EncodeNats.eq_def]
    dsimp only
    rw [b64DecodeNats.eq_def]

theorem b64DecodeStr_encodeStr (l : List Nat) (h : ∀ b ∈ l, b < 256) :
    b64DecodeStr (b64EncodeStr l) = some l := by
  unfold b64DecodeStr b64EncodeStr
  exact b64DecodeNats_encode l h

theorem utf8DecodeNats_encodeChar (n : Nat) (h : Nat.isValidChar n) (rest : List Nat) :
    utf8DecodeNats (utf8EncodeChar n ++ rest) = (utf8DecodeNats rest).map (n :: ·) := by
  have hrange : n < 0xd800 ∨ (0xdfff < n ∧ n < 0x110000) := h
  by_cases ha : n < 0x80
  · simp only [utf8EncodeChar, if_pos ha, List.cons_append, List.nil_append]
    rw [utf8DecodeNats.eq_def]
    dsimp only
    rw [if_pos ha]
  · by_cases hb : n < 0x800
    · simp only [utf8EncodeChar, if_neg ha, if_pos hb, List.cons_append, List.nil_append]
      rw [utf8DecodeNats.eq_def]
      dsimp only
      rw [if_neg (by omega), if_neg (by omega), if_pos (by omega)]
      rw [utf8DecCont2.eq_def]
      dsimp only
      have hc : isCont (0x80 + n % 64) = true := by
        simp only [isCont, Bool.and_eq_true, decide_eq_true_eq]
        omega
      rw [if_pos hc]
      simp only [show (0xC0 + n / 64 - 0xC0) * 64 + (0x80 + n % 64 - 0x80) = n from by omega]
    · by_cases hd : n < 0x10000
      · simp only [utf8EncodeChar, if_neg ha, if_neg hb, if_pos hd, List.cons_append,
          List.nil_append]
        rw [utf8DecodeNats.eq_def]
        dsimp only
        rw [if_neg (by omega), if_neg (by omega), if_neg (by omega), if_pos (by omega)]
        rw [utf8DecCont3.eq_def]
        dsimp only
        have hc : (isCont (0x80 + n / 64 % 64) && isCont (0x80 + n % 64) &&
            (0xE0 + n / 4096 != 0xE0 || decide (0xA0 ≤ 0x80 + n / 64 % 64)) &&
            (0xE0 + n / 4096 != 0xED || decide (0x80 + n / 64 % 64 < 0xA0))) = true := by
          simp only [isCont, Bool.and_eq_true, Bool.or_eq_true, decide_eq_true_eq,
            bne_iff_ne, ne_eq]
          omega
        rw [if_pos hc]
        simp only [show (0xE0 + n / 4096 - 0xE0) * 4096 + (0x80 + n / 64 % 64 - 0x80) * 64 +
          (0x80 + n % 64 - 0x80) = n from by omega]
      · simp only [utf8EncodeChar, if_neg ha, if_neg hb, if_neg hd, List.cons_append,
          List.nil_append]
        rw [utf8DecodeNats.eq_def]
        dsimp only
        rw [if_neg (by omega), if_neg (by omega), if_neg (by omega), if_neg (by omega),
          if_pos (by omega)]
        rw [utf8DecCont4.eq_def]
        dsimp only
        have hc : (isCont (0x80 + n / 4096 % 64) && isCont (0x80 + n / 64 % 64) &&
            isCont (0x80 + n % 64) &&
            (0xF0 + n / 262144 != 0xF0 || decide (0x90 ≤ 0x80 + n / 4096 % 64)) &&
            (0xF0 + n / 262144 != 0xF4 || decide (0x80 + n / 4096 % 64 < 0x90))) = true := by
          simp only [isCont, Bool.and_eq_true, Bool.or_eq_true, decide_eq_true_eq,
            bne_iff_ne, ne_eq]
          omega
        rw [if_pos hc]
        simp only [show (0xF0 + n / 262144 - 0xF0) * 262144 + (0x80 + n / 4096 % 64 - 0x80) *
          4096 + (0x80 + n / 64 % 64 - 0x80) * 64 + (0x80 + n % 64 - 0x80) = n from by omega]

theorem utf8DecodeNats_encode_chars (cs : List Char) :
    utf8DecodeNats (cs.flatMap (fun c => utf8EncodeChar c.toNat)) = some (cs.map Char.toNat) := by
  induction cs with
  | nil =>
    simp only [List.flatMap_nil, List.map_nil]
    rw [utf8DecodeNats.eq_def]
  | cons c cs ih =>
    have hv : Nat.isValidChar c.toNat := c.valid
    simp only [List.flatMap_cons, List.map_cons]
    rw [utf8DecodeNats_encodeChar c.toNat hv, ih]
    rfl

theorem utf8Decode_encode (s : String) : utf8Decode (utf8Encode s) = some s := by
  unfold utf8Decode utf8Encode
  rw [utf8DecodeNats_encode_chars]
  show some (String.mk ((s.data.map Char.toNat).map Char.ofNat)) = some s
  congr 1
  apply String.ext
  show (s.data.map Char.toNat).map Char.ofNat = s.data
  rw [List.map_map]
  have hcomp : (Char.ofNat ∘ Char.toNat) = id := funext Char.ofNat_toNat
  rw [hcomp, List.map_id]

theorem utf8EncodeChar_lt_256 (n : Nat) (h : Nat.isValidChar n) :
    ∀ b ∈ utf8EncodeChar n, b < 256 := by
  intro b hb
  unfold utf8EncodeChar at hb
  rcases h with h | ⟨h1, h2⟩ <;>
    split_ifs at hb <;> simp only [List.mem_cons, List.not_mem_nil, or_false] at hb <;>
      rcases hb with rfl | rfl | rfl | rfl <;> omega

theorem utf8Encode_lt_256 (s : String) : ∀ b ∈ utf8Encode s, b < 256 := by
  intro b hb
  unfold utf8Encode at hb
  rw [List.mem_flatMap] at hb
  obtain ⟨c, _, hbc⟩ := hb
  exact utf8EncodeChar_lt_256 c.toNat c.valid b hbc

theorem ctrXor_length (f : Nat → Nat) : ∀ (i : Nat) (l : List Nat),
    (ctrXor f i l).length = l.length := by
  intro i l
  induction l generalizing i with
  | nil => rfl
  | cons b rest ih => simp [ctrXor, ih]

theorem ctrXor_ctrXor (f : Nat → Nat) : ∀ (i : Nat) (l : List Nat),
    ctrXor f i (ctrXor f i l) = l := by
  intro i l
  induction l generalizing i with
  | nil => rfl
  | cons b rest ih =>
    simp only [ctrXor, ih, List.cons.injEq, and_true]
    rw [Nat.xor_assoc, Nat.xor_self, Nat.xor_zero]

theorem ctrXor_lt_256 (f : Nat → Nat) (hf : ∀ j, f j < 256) :
    ∀ (i : Nat) (l : List Nat), (∀ b ∈ l, b < 256) → ∀ b ∈ ctrXor f i l, b < 256 := by
  intro i l
  induction l generalizing i with
  | nil => intro _ b hb; simp [ctrXor] at hb
  | cons a rest ih =>
    intro hl b hb
    simp only [ctrXor, List.mem_cons] at hb
    rcases hb with rfl | hb
    · exact Nat.xor_lt_two_pow (n := 8) (hl a (by simp)) (hf i)
    · exact ih (i + 1) (fun x hx => hl x (by simp [hx])) b hb

theorem resolveKeyId_of_mem (kv : List (String × List Nat)) (k : String)
    (h : (kv.lookup k).isSome) : resolveKeyId kv k = some k := by
  unfold resolveKeyId
  rw [if_pos h]

theorem slice4 (s n t c : List Nat) (hs : s.length = 16) (hn : n.length = 12)
    (ht : t.length = 16) :
    (s ++ n ++ t ++ c).take 16 = s ∧ ((s ++ n ++ t ++ c).drop 16).take 12 = n ∧
      ((s ++ n ++ t ++ c).drop 28).take 16 = t ∧ (s ++ n ++ t ++ c).drop 44 = c := by
  have hd16 : (s ++ n ++ t ++ c).drop 16 = n ++ (t ++ c) := by
    rw [List.append_assoc, List.append_assoc, List.drop_left' hs]
  have hd28 : (s ++ n ++ t ++ c).drop 28 = t ++ c := by
    have h1 : (s ++ n ++ t ++ c).drop 28 = ((s ++ n ++ t ++ c).drop 16).drop 12 := by
      rw [List.drop_drop]
    rw [h1, hd16, List.drop_left' hn]
  refine ⟨?_, ?_, ?_, ?_⟩
  · rw [List.append_assoc, List.append_assoc, List.take_left' hs]
  · rw [hd16, List.take_left' hn]
  · rw [hd28, List.take_left' ht]
  · have h1 : (s ++ n ++ t ++ c).drop 44 = ((s ++ n ++ t ++ c).drop 28).drop 16 := by
      rw [List.drop_drop]
    rw [h1, hd28, List.drop_left' ht]

/-- Successful decryption of a well-formed `salt ‖ nonce ‖ tag ‖ ciphertext`
layout: the shared core of the round-trip and key-fallback facts. -/
theorem decryptField_layout (P : AesGcm) (hP : P.Wf) (kv : List (String × List Nat))
    (key salt nonce : List Nat) (s : String) (kid kid2 alg cls : String)
    (hres : resolveKeyId kv kid = some kid2) (hkey : kv.lookup kid2 = some key)
    (hsalt : salt.length = 16) (hsb : ∀ b ∈ salt, b < 256)
    (hnonce : nonce.length = 12) (hnb : ∀ b ∈ nonce, b < 256) :
    decryptField P kv
      { encrypted_value := b64EncodeStr (salt ++ nonce ++
          P.tagOf (P.deriveKey key salt) nonce
            (ctrXor (P.ksByte (P.deriveKey key salt) nonce) 0 (utf8Encode s)) ++
          ctrXor (P.ksByte (P.deriveKey key salt) nonce) 0 (utf8Encode s)),
        encryption_key_id := kid, algorithm := alg, classification := cls } = Except.ok s := by
  obtain ⟨hks, htlen, htb⟩ := hP
  set dk := P.deriveKey key salt with hdk
  set ct := ctrXor (P.ksByte dk nonce) 0 (utf8Encode s) with hct
  set tg := P.tagOf dk nonce ct with htg
  have hbytes : ∀ b ∈ salt ++ nonce ++ tg ++ ct, b < 256 := by
    intro b hb
    simp only [List.append_assoc, List.mem_append] at hb
    rcases hb with hb | hb | hb | hb
    · exact hsb b hb
    · exact hnb b hb
    · exact htb dk nonce ct b hb
    · exact ctrXor_lt_256 _ (fun j => hks dk nonce j) 0 _ (utf8Encode_lt_256 s) b hb
  obtain ⟨h1, h2, h3, h4⟩ := slice4 salt nonce tg ct hsalt hnonce (htlen dk nonce ct)
  unfold decryptField
  dsimp only
  rw [hres]
  dsimp only
  rw [hkey]
  dsimp only [Option.getD_some]
  rw [b64DecodeStr_encodeStr _ hbytes]
  dsimp only
  rw [h1, h2, h3, h4]
  rw [if_neg (by rw [htlen dk nonce ct]; omega)]
  rw [if_neg (by exact fun hne => hne rfl)]
  rw [ctrXor_ctrXor, utf8Decode_encode]

theorem sumGcm_wf : sumGcm.Wf := by
  refine ⟨fun k n i => Nat.mod_lt _ (by norm_num), fun k n c => by simp [sumGcm],
    fun k n c b hb => ?_⟩
  simp only [sumGcm, List.mem_append, List.mem_replicate, List.mem_singleton] at hb
  rcases hb with ⟨_, rfl⟩ | rfl
  · norm_num
  · exact Nat.mod_lt _ (by norm_num)

theorem set_lt_256 (l : List Nat) (i b' : Nat) (hb' : b' < 256) (hl : ∀ b ∈ l, b < 256) :
    ∀ b ∈ l.set i b', b < 256 :=
  fun b hb => (List.mem_or_eq_of_mem_set hb).elim (hl b) (fun h => h ▸ hb')

theorem set_ne_of_getD_ne (l : List Nat) (i b : Nat) (h : i < l.length)
    (hne : b ≠ l.getD i 0) : l.set i b ≠ l := by
  intro heq
  have h1 : (l.set i b).getD i 0 = l.getD i 0 := by rw [heq]
  rw [List.getD_eq_getElem?_getD, List.getElem?_set_self (by simpa using h)] at h1
  simp at h1
  exact hne (by rw [List.getD_eq_getElem?_getD]; exact h1)

/-- C1: for every plaintext string `s` and classification `c`, decrypting
the `EncryptedField` produced by `encrypt_field(s, c)` against a key
store whose "current" entry is the encrypting master key yields `s`
again (round-trip), for every instantiation of the cryptographic
primitives and all 16-byte salts / 12-byte nonces. -/
theorem encryptField_decryptField_roundtrip (P : AesGcm) (hP : P.Wf)
    (kv : List (String × List Nat)) (masterKey salt nonce : List Nat) (s cls : String)
    (hcur : kv.lookup "current" = some masterKey)
    (hsalt : salt.length = 16) (hsb : ∀ b ∈ salt, b < 256)
    (hnonce : nonce.length = 12) (hnb : ∀ b ∈ nonce, b < 256) :
    decryptField P kv (encryptField P masterKey salt nonce s cls) = Except.ok s := by
  unfold encryptField
  dsimp only
  exact decryptField_layout P hP kv masterKey salt nonce s "current" "current" "AES-256-GCM" cls
    (resolveKeyId_of_mem kv "current" (by rw [hcur]; rfl)) hcur hsalt hsb hnonce hnb

/-- Witness for C1 at concrete inputs (a multi-byte UTF-8 plaintext). -/
theorem encryptField_decryptField_roundtrip_witness :
    decryptField sumGcm [("current", List.replicate 32 7)]
      (encryptField sumGcm (List.replicate 32 7) (List.replicate 16 1) (List.replicate 12 2)
        "José ✓" "CONFIDENTIAL") = Except.ok "José ✓" :=
  encryptField_decryptField_roundtrip sumGcm sumGcm_wf _ _ _ _ _ _ (by decide) (by decide)
    (by decide) (by decide) (by decide)

/-- C2: flipping any single byte of the tag region (offsets 28–43 of the
decoded `encrypted_value`) or of the ciphertext region (offsets 44+) and
then decrypting yields `EncryptionError` — never a plaintext.  For a tag
flip this holds for every instantiation of the GCM primitives; for a
ciphertext flip the hypothesis `hmac` records the authentication
guarantee of AES-GCM (the recomputed tag of the altered ciphertext
differs from the stored tag), which is exactly the property whose
failure probability is 2^-128 for the real primitive. -/
theorem decryptField_tamper_detected (P : AesGcm) (hP : P.Wf)
    (kv : List (String × List Nat)) (masterKey salt nonce : List Nat) (s cls : String)
    (hcur : kv.lookup "current" = some masterKey)
    (hsalt : salt.length = 16) (hsb : ∀ b ∈ salt, b < 256)
    (hnonce : nonce.length = 12) (hnb : ∀ b ∈ nonce, b < 256)
    (i b' : Nat) (hb' : b' < 256)
    (hlo : 28 ≤ i) (_hhi : i < 44 + (utf8Encode s).length)
    (hflip : b' ≠ (gcmLayout P masterKey salt nonce s).getD i 0)
    (hmac : 44 ≤ i →
      P.tagOf (P.deriveKey masterKey salt) nonce
          ((ctrXor (P.ksByte (P.deriveKey masterKey salt) nonce) 0 (utf8Encode s)).set
            (i - 44) b')
        ≠ P.tagOf (P.deriveKey masterKey salt) nonce
          (ctrXor (P.ksByte (P.deriveKey masterKey salt) nonce) 0 (utf8Encode s))) :
    decryptField P kv
      { encryptField P masterKey salt nonce s cls with
        encrypted_value := b64EncodeStr ((gcmLayout P masterKey salt nonce s).set i b') }
      = Except.error "Decryption failed" := by
  obtain ⟨hks, htlen, htb⟩ := hP
  set dk := P.deriveKey masterKey salt with hdk
  set ct := ctrXor (P.ksByte dk nonce) 0 (utf8Encode s) with hct
  set tg := P.tagOf dk nonce ct with htg
  have htglen : tg.length = 16 := htlen dk nonce ct
  have hctlen : ct.length = (utf8Encode s).length := ctrXor_length _ 0 _
  have hctb : ∀ b ∈ ct, b < 256 :=
    ctrXor_lt_256 _ (fun j => hks dk nonce j) 0 _ (utf8Encode_lt_256 s)
  have hlayout : gcmLayout P masterKey salt nonce s = salt ++ (nonce ++ (tg ++ ct)) := by
    unfold gcmLayout
    dsimp only
    rw [← hct, ← htg, List.append_assoc, List.append_assoc]
  have hres : resolveKeyId kv "current" = some "current" :=
    resolveKeyId_of_mem kv "current" (by rw [hcur]; rfl)
  by_cases hcase : i < 44
  · -- a byte of the tag region is changed
    have hset : (gcmLayout P masterKey salt nonce s).set i b' =
        salt ++ nonce ++ tg.set (i - 28) b' ++ ct := by
      rw [hlayout]
      rw [List.set_append_right _ _ (show salt.length ≤ i by omega)]
      rw [List.set_append_right _ _ (show nonce.length ≤ i - salt.length by omega)]
      rw [List.set_append_left _ _ (show i - salt.length - nonce.length < tg.length by omega)]
      rw [hsalt, hnonce]
      rw [show i - 16 - 12 = i - 28 from by omega]
      rw [List.append_assoc, List.append_assoc]
    have hflip' : b' ≠ tg.getD (i - 28) 0 := by
      rw [hlayout] at hflip
      rw [List.getD_append_right _ _ _ _ (show salt.length ≤ i by omega)] at hflip
      rw [List.getD_append_right _ _ _ _
        (show nonce.length ≤ i - salt.length by omega)] at hflip
      rw [List.getD_append _ _ _ _
        (show i - salt.length - nonce.length < tg.length by omega)] at hflip
      rw [hsalt, hnonce] at hflip
      rw [show i - 16 - 12 = i - 28 from by omega] at hflip
      exact hflip
    have hbytes : ∀ b ∈ salt ++ nonce ++ tg.set (i - 28) b' ++ ct, b < 256 := by
      intro b hb
      simp only [List.append_assoc, List.mem_append] at hb
      rcases hb with hb | hb | hb | hb
      · exact hsb b hb
      · exact hnb b hb
      · exact set_lt_256 tg (i - 28) b' hb' (htb dk nonce ct) b hb
      · exact hctb b hb
    obtain ⟨h1, h2, h3, h4⟩ := slice4 salt nonce (tg.set (i - 28) b') ct hsalt hnonce
      (by rw [List.length_set, htglen])
    unfold decryptField
    dsimp only [encryptField]
    rw [hset, hres]
    dsimp only
    rw [hcur]
    dsimp only [Option.getD_some]
    rw [b64DecodeStr_encodeStr _ hbytes]
    dsimp only
    rw [h1, h2, h3, h4]
    rw [if_neg (by rw [List.length_set, htglen]; omega)]
    have hne : P.tagOf (P.deriveKey masterKey salt) nonce ct ≠ tg.set (i - 28) b' := by
      rw [← hdk, ← htg]
      exact fun heq => set_ne_of_getD_ne tg (i - 28) b' (by omega) hflip' heq.symm
    rw [if_pos hne]
  · -- a byte of the ciphertext region is changed
    have hset : (gcmLayout P masterKey salt nonce s).set i b' =
        salt ++ nonce ++ tg ++ ct.set (i - 44) b' := by
      rw [hlayout]
      rw [List.set_append_right _ _ (show salt.length ≤ i by omega)]
      rw [List.set_append_right _ _ (show nonce.length ≤ i - salt.length by omega)]
      rw [List.set_append_right _ _
        (show tg.length ≤ i - salt.length - nonce.length by omega)]
      rw [hsalt, hnonce, htglen]
      rw [show i - 16 - 12 - 16 = i - 44 from by omega]
      rw [List.append_assoc, List.append_assoc]
    have hbytes : ∀ b ∈ salt ++ nonce ++ tg ++ ct.set (i - 44) b', b < 256 := by
      intro b hb
      simp only [List.append_assoc, List.mem_append] at hb
      rcases hb with hb | hb | hb | hb
      · exact hsb b hb
      · exact hnb b hb
      · exact htb dk nonce ct b hb
      · exact set_lt_256 ct (i - 44) b' hb' hctb b hb
    obtain ⟨h1, h2, h3, h4⟩ := slice4 salt nonce tg (ct.set (i - 44) b') hsalt hnonce htglen
    unfold decryptField
    dsimp only [encryptField]
    rw [hset, hres]
    dsimp only
    rw [hcur]
    dsimp only [Option.getD_some]
    rw [b64DecodeStr_encodeStr _ hbytes]
    dsimp only
    rw [h1, h2, h3, h4]
    rw [if_neg (by rw [htglen]; omega)]
    have hne : P.tagOf (P.deriveKey masterKey salt) nonce (ct.set (i - 44) b') ≠ tg := by
      rw [← hdk]
      exact hmac (by omega)
    rw [if_pos hne]

/-- Witness for C2: flipping the first ciphertext byte of a concrete
encryption to 0 is rejected. -/
theorem decryptField_tamper_detected_witness :
    decryptField sumGcm [("current", List.replicate 32 7)]
      { encryptField sumGcm (List.replicate 32 7) (List.replicate 16 1) (List.replicate 12 2)
          "AB" "CONFIDENTIAL" with
        encrypted_value := b64EncodeStr
          ((gcmLayout sumGcm (List.replicate 32 7) (List.replicate 16 1) (List.replicate 12 2)
            "AB").set 44 0) }
      = Except.error "Decryption failed" :=
  decryptField_tamper_detected sumGcm sumGcm_wf _ _ _ _ _ _ (by decide) (by decide) (by decide)
    (by decide) (by decide) 44 0 (by decide) (by decide) (by decide) (by decide)
    (fun _ => by decide)

theorem resolveKeyId_default (kv : List (String × List Nat))
    (h1 : kv.lookup "default" = none) (h2 : (kv.lookup "current").isSome) :
    resolveKeyId kv "default" = some "current" := by
  unfold resolveKeyId
  rw [if_neg (by rw [h1]; simp)]
  dsimp only
  rw [show (legacyKeyAliases.lookup "default").getD "default" = "current" from rfl]
  rw [if_pos h2]

/-- C7: (a) a field stored with the legacy key id "default" decrypts
exactly as the same field with key id "current" whenever the key store
has no "default" entry but does have "current" (the legacy-alias map is
applied before failing); (b) a field encrypted under the "v1" key
material and stored with `encryption_key_id = "v1"` still decrypts to
the original plaintext against any key store whose "v1" entry holds that
key — whatever "current" has been rotated to. -/
theorem decryptField_key_fallback (P : AesGcm) (hP : P.Wf) :
    (∀ (kv : List (String × List Nat)) (f : EncryptedField),
      f.encryption_key_id = "default" →
      kv.lookup "default" = none → (kv.lookup "current").isSome →
      decryptField P kv f = decryptField P kv { f with encryption_key_id := "current" }) ∧
    (∀ (kv : List (String × List Nat)) (v1key salt nonce : List Nat) (s cls : String),
      kv.lookup "v1" = some v1key →
      salt.length = 16 → (∀ b ∈ salt, b < 256) →
      nonce.length = 12 → (∀ b ∈ nonce, b < 256) →
      decryptField P kv
        { encryptField P v1key salt nonce s cls with encryption_key_id := "v1" }
        = Except.ok s) := by
  constructor
  · intro kv f hid h1 h2
    unfold decryptField
    dsimp only
    rw [hid, resolveKeyId_default kv h1 h2,
      resolveKeyId_of_mem kv "current" h2]
  · intro kv v1key salt nonce s cls hv1 hsalt hsb hnonce hnb
    have h := decryptField_layout P hP kv v1key salt nonce s "v1" "v1" "AES-256-GCM" cls
      (resolveKeyId_of_mem kv "v1" (by rw [hv1]; rfl)) hv1 hsalt hsb hnonce hnb
    unfold encryptField
    dsimp only
    exact h

/-- Witness for C7: concrete alias resolution and a concrete "v1"
round-trip after "current" has been rotated. -/
theorem decryptField_key_fallback_witness :
    (decryptField sumGcm [("current", [5])]
        { encrypted_value := "AAAA", encryption_key_id := "default",
          algorithm := "AES-256-GCM", classification := "CONFIDENTIAL" }
      = decryptField sumGcm [("current", [5])]
        { encrypted_value := "AAAA", encryption_key_id := "current",
          algorithm := "AES-256-GCM", classification := "CONFIDENTIAL" }) ∧
    (decryptField sumGcm [("current", [9, 9]), ("v1", List.replicate 32 7)]
        { encryptField sumGcm (List.replicate 32 7) (List.replicate 16 1) (List.replicate 12 2)
            "hey" "CONFIDENTIAL" with encryption_key_id := "v1" }
      = Except.ok "hey") :=
  ⟨(decryptField_key_fallback sumGcm sumGcm_wf).1 _ _ rfl (by decide) (by decide),
    (decryptField_key_fallback sumGcm sumGcm_wf).2 _ _ _ _ _ _ (by decide) (by decide)
      (by decide) (by decide) (by decide)⟩

/-- C9: whenever the stored `encrypted_value` base64-decodes to fewer
than 44 bytes (16-byte salt + 12-byte nonce + 16-byte tag), decryption
fails with `EncryptionError` (the sliced tag is shorter than the 16
bytes `modes.GCM` requires) and never returns a plaintext. -/
theorem decryptField_short_input (P : AesGcm) (kv : List (String × List Nat))
    (f : EncryptedField) (data : List Nat)
    (hdec : b64DecodeStr f.encrypted_value = some data) (hshort : data.length < 44) :
    ∃ msg, decryptField P kv f = Except.error msg := by
  unfold decryptField
  cases hres : resolveKeyId kv f.encryption_key_id with
  | none => exact ⟨_, rfl⟩
  | some kid =>
    dsimp only
    rw [hdec]
    dsimp only
    rw [if_pos (by rw [List.length_take, List.length_drop]; omega)]
    exact ⟨_, rfl⟩

/-- Witness for C9: a 3-byte payload ("AAAA" decodes to 3 zero bytes). -/
theorem decryptField_short_input_witness :
    ∃ msg, decryptField sumGcm [("current", [5])]
      { encrypted_value := "AAAA", encryption_key_id := "current",
        algorithm := "AES-256-GCM", classification := "CONFIDENTIAL" }
      = Except.error msg :=
  decryptField_short_input sumGcm [("current", [5])] _ [0, 0, 0] (by decide) (by decide)

/-- C4 counterexample: the claim "the risk score lies in [0, 100]" fails
on the code.  With no recent failures, the internal IP "10.0.0.1" and a
known device, `_calculate_risk_score` returns -10: the code computes
`min(score, 100)` and never clamps from below. -/
theorem calculateRiskScore_counterexample :
    calculateRiskScore 0 "10.0.0.1" true = -10 ∧ (-10 : Int) < 0 := by
  constructor
  · decide
  · decide

/-- C4 amended: for every failure count, IP string and device-novelty
state, the risk score is at most 100 and at least -10 (the only negative
contribution is the single -10 internal-IP adjustment; only the upper
end is clamped). -/
theorem calculateRiskScore_bounds (recentFailures : Nat) (ipAddress : String)
    (knownDevice : Bool) :
    -10 ≤ calculateRiskScore recentFailures ipAddress knownDevice ∧
      calculateRiskScore recentFailures ipAddress knownDevice ≤ 100 := by
  unfold calculateRiskScore
  dsimp only
  have h0 : (0 : Int) ≤ (recentFailures : Int) * 20 := by positivity
  split_ifs <;> constructor <;> omega

/-- C5: `check_permission` returns true unconditionally for SUPER_ADMIN;
for every other role it returns false whenever a (truthy, i.e. nonempty —
Python's `if tenant_id` test) target tenant id differs from the user's
tenant id, regardless of role levels; otherwise it returns true exactly
when the user's hierarchy level is at least the required role's, with
levels SUPER_ADMIN=100, TENANT_ADMIN=80, DISPATCHER=60,
TECHNICIAN=ACCOUNTANT=40, VIEWER=20. -/
theorem checkPermission_spec :
    (∀ req t u, checkPermission UserRole.SUPER_ADMIN req t u = true) ∧
    (∀ role req t u, role ≠ UserRole.SUPER_ADMIN → t ≠ "" → some t ≠ u →
      checkPermission role req (some t) u = false) ∧
    (∀ role req t u, role ≠ UserRole.SUPER_ADMIN → tenantMismatch t u = false →
      checkPermission role req t u = decide (roleLevel role ≥ roleLevel req)) ∧
    (roleLevel UserRole.SUPER_ADMIN = 100 ∧ roleLevel UserRole.TENANT_ADMIN = 80 ∧
      roleLevel UserRole.DISPATCHER = 60 ∧ roleLevel UserRole.TECHNICIAN = 40 ∧
      roleLevel UserRole.ACCOUNTANT = 40 ∧ roleLevel UserRole.VIEWER = 20) := by
  refine ⟨fun req t u => rfl, fun role req t u hrole ht hu => ?_,
    fun role req t u hrole hmis => ?_, by decide⟩
  · unfold checkPermission
    rw [if_neg hrole, if_pos]
    unfold tenantMismatch
    simp only [Bool.and_eq_true, decide_eq_true_eq]
    exact ⟨ht, fun h => hu (by rw [h])⟩
  · unfold checkPermission
    rw [if_neg hrole, if_neg (by rw [hmis]; exact Bool.false_ne_true)]

/-- Witness for C5: the spec's own scenario — TENANT_ADMIN asking for a
VIEWER-level resource of another tenant is denied. -/
theorem checkPermission_spec_witness :
    checkPermission UserRole.TENANT_ADMIN UserRole.VIEWER (some "A") (some "B") = false :=
  checkPermission_spec.2.1 UserRole.TENANT_ADMIN UserRole.VIEWER "A" (some "B")
    (by decide) (by decide) (by decide)

/-- C6 counterexample: the claim fails on the code.  `check_permission`
does not normalize role strings: called directly with the legacy
`UserRole.TECH` member (string value "tech") it uses hierarchy level 0
(`role_hierarchy` has no TECH entry), so a TECH check against VIEWER is
denied while a TECHNICIAN check is allowed. -/
theorem checkPermission_tech_counterexample :
    checkPermission UserRole.TECH UserRole.VIEWER none none = false ∧
    checkPermission UserRole.TECHNICIAN UserRole.VIEWER none none = true := by
  constructor
  · decide
  · decide

/-- C6 amended: normalization happens in `UserRole.normalize_role` (the
ingestion boundary used by `EnhancedUser`), not inside
`check_permission`: `normalize_role("tech")` is TECHNICIAN, so a
permission check on the normalized legacy role agrees with TECHNICIAN
for every required role and tenant pair; `check_permission` itself gives
the unnormalized TECH member level 0. -/
theorem normalizeRole_tech_checkPermission :
    normalizeRole "tech" = some UserRole.TECHNICIAN ∧
    (∀ req t u, (normalizeRole "tech").map (fun r => checkPermission r req t u)
      = some (checkPermission UserRole.TECHNICIAN req t u)) ∧
    roleLevel UserRole.TECH = 0 := by
  refine ⟨by decide, fun req t u => ?_, by decide⟩
  rw [show normalizeRole "tech" = some UserRole.TECHNICIAN from by decide]
  rfl

theorem runAuditLog_first_prev (sha : String → String) (st : Option String)
    (calls : List (AuditInput × String)) (e : AuditEntry)
    (h : (runAuditLog sha st calls).get? 0 = some e) : e.previous_log_hash = st := by
  cases calls with
  | nil => simp [runAuditLog] at h
  | cons c rest =>
    obtain ⟨inp, iid⟩ := c
    simp only [runAuditLog, logEvent, List.get?_cons_zero, Option.some.injEq] at h
    rw [← h]

theorem runAuditLog_chain (sha : String → String) :
    ∀ (calls : List (AuditInput × String)) (st : Option String) (k : Nat)
      (ek ek1 : AuditEntry),
      (runAuditLog sha st calls).get? k = some ek →
      (runAuditLog sha st calls).get? (k + 1) = some ek1 →
      ek1.previous_log_hash = some (sha (ek.id ++ ek.checksum)) := by
  intro calls
  induction calls with
  | nil =>
    intro st k ek ek1 hk _
    simp [runAuditLog] at hk
  | cons c rest ih =>
    obtain ⟨inp, iid⟩ := c
    intro st k ek ek1 hk hk1
    simp only [runAuditLog, logEvent] at hk hk1
    cases k with
    | zero =>
      simp only [List.get?_cons_zero, Option.some.injEq] at hk
      simp only [List.get?_cons_succ] at hk1
      have hprev := runAuditLog_first_prev sha
        (some (sha (iid ++ sha (checksumPayload inp st)))) rest ek1 hk1
      rw [hprev, ← hk]
    | succ k =>
      simp only [List.get?_cons_succ] at hk hk1
      exact ih _ k ek ek1 hk hk1

theorem runAuditLog_verify (sha : String → String) :
    ∀ (calls : List (AuditInput × String)) (st : Option String),
      ∀ e ∈ runAuditLog sha st calls, verifyChecksum sha e = true := by
  intro calls
  induction calls with
  | nil =>
    intro st e he
    simp [runAuditLog] at he
  | cons c rest ih =>
    obtain ⟨inp, iid⟩ := c
    intro st e he
    simp only [runAuditLog, logEvent, List.mem_cons] at he
    rcases he with rfl | he
    · simp [verifyChecksum]
    · exact ih _ e he

/-- C3: over any sequence of successful `log_security_event` calls in one
process (chain state starting at `None`), the first stored entry's
`previous_log_hash` is nil; entry k+1's `previous_log_hash` is
SHA256(entry k's persisted id ++ entry k's checksum); and recomputing
every entry's checksum from its own fields (all fields except id,
checksum and timestamp, serialized with sorted keys) matches the stored
checksum — for every choice of the hash function. -/
theorem auditLog_chain_integrity (sha : String → String)
    (calls : List (AuditInput × String)) :
    (∀ e, (runAuditLog sha none calls).get? 0 = some e → e.previous_log_hash = none) ∧
    (∀ k ek ek1, (runAuditLog sha none calls).get? k = some ek →
      (runAuditLog sha none calls).get? (k + 1) = some ek1 →
      ek1.previous_log_hash = some (sha (ek.id ++ ek.checksum))) ∧
    (∀ e ∈ runAuditLog sha none calls, verifyChecksum sha e = true) :=
  ⟨fun e h => runAuditLog_first_prev sha none calls e h,
    fun k ek ek1 h1 h2 => runAuditLog_chain sha calls none k ek ek1 h1 h2,
    fun e he => runAuditLog_verify sha calls none e he⟩

/-- Witness for C3: the second of three concrete log calls links to the
first entry's id and checksum. -/
theorem auditLog_chain_integrity_witness :
    ((runAuditLog shaToy none demoCalls).getD 1 default).previous_log_hash =
      some (shaToy (((runAuditLog shaToy none demoCalls).getD 0 default).id ++
        ((runAuditLog shaToy none demoCalls).getD 0 default).checksum)) :=
  (auditLog_chain_integrity shaToy demoCalls).2.1 0
    ((runAuditLog shaToy none demoCalls).getD 0 default)
    ((runAuditLog shaToy none demoCalls).getD 1 default) rfl rfl

/-- C8 counterexample: the claim fails on the code.  For a record whose
"email" field is a corrupted encrypted map (base64 of 43 bytes, one
short of the minimal layout, hence undecryptable under every key and
fallback), `decrypt_pii_fields` does not raise but substitutes
"[ENCRYPTED_EMAIL]": the "admin@example.com" placeholder is stored
under the key "admin_email", and `field_placeholders.get("email")`
misses, falling back to the generic `"[ENCRYPTED_" + name.upper() + "]"`. -/
theorem decryptPiiFields_email_counterexample :
    decryptPiiFields sumGcm [("current", [5])]
      [("email", FieldVal.enc { encrypted_value := some badB64,
                                encryption_key_id := some "current" })] ["email"]
      = [("email", FieldVal.str "[ENCRYPTED_EMAIL]")] ∧
    "[ENCRYPTED_EMAIL]" ≠ "admin@example.com" := by
  constructor
  · decide
  · decide

/-- C8 amended: when the "email" field of a record holds an encrypted
map that fails direct decryption and every fallback strategy,
`decrypt_pii_fields(record, ["email"])` does not raise and replaces the
field with the generic placeholder "[ENCRYPTED_EMAIL]" (the
"admin@example.com" placeholder belongs to the field name
"admin_email"). -/
theorem decryptPiiFields_email_placeholder (P : AesGcm) (kv : List (String × List Nat))
    (rec : List (String × FieldVal)) (d : EncDict)
    (hlook : rec.lookup "email" = some (FieldVal.enc d))
    (hfail : ∃ msg, decryptFieldDict P kv d = Except.error msg)
    (hfb : tryFallbackDecryption P kv d = none) :
    decryptPiiFields P kv rec ["email"] =
      setField rec "email" (FieldVal.str "[ENCRYPTED_EMAIL]") := by
  obtain ⟨msg, hmsg⟩ := hfail
  unfold decryptPiiFields
  simp only [List.foldl_cons, List.foldl_nil]
  unfold processPiiField
  rw [hlook]
  dsimp only
  rw [hmsg]
  dsimp only
  rw [hfb]
  dsimp only
  rw [show placeholderFor "email" = "[ENCRYPTED_EMAIL]" from by decide]

/-- Witness for C8's amended claim at a concrete corrupted record. -/
theorem decryptPiiFields_email_placeholder_witness :
    decryptPiiFields sumGcm [("current", [5])]
      [("email", FieldVal.enc { encrypted_value := some badB64,
                                encryption_key_id := some "current" }),
        ("x", FieldVal.str "keep")] ["email"]
      = setField
          [("email", FieldVal.enc { encrypted_value := some badB64,
                                    encryption_key_id := some "current" }),
            ("x", FieldVal.str "keep")] "email" (FieldVal.str "[ENCRYPTED_EMAIL]") :=
  decryptPiiFields_email_placeholder sumGcm [("current", [5])]
    [("email", FieldVal.enc { encrypted_value := some badB64,
                              encryption_key_id := some "current" }),
      ("x", FieldVal.str "keep")]
    { encrypted_value := some badB64, encryption_key_id := some "current" } (by decide)
    ⟨"Decryption failed", by rfl⟩ (by decide)

theorem lookup_setField_ne (rec : List (String × FieldVal)) (name m : String)
    (v : FieldVal) (hm : m ≠ name) :
    (setField rec name v).lookup m = rec.lookup m := by
  induction rec with
  | nil => rfl
  | cons kv rest ih =>
    obtain ⟨k, x⟩ := kv
    unfold setField
    by_cases hk : k = name
    · rw [if_pos hk]
      have hmk : (m == k) = false := by
        rw [hk]
        exact beq_eq_false_iff_ne.mpr hm
      simp [List.lookup, hmk]
    · rw [if_neg hk]
      by_cases hmk : m = k
      · simp [List.lookup, hmk]
      · have hmk' : (m == k) = false := beq_eq_false_iff_ne.mpr hmk
        simp [List.lookup, hmk', ih]

theorem processPiiField_lookup_ne (P : AesGcm) (kv : List (String × List Nat))
    (rec : List (String × FieldVal)) (name m : String) (hm : m ≠ name) :
    (processPiiField P kv rec name).lookup m = rec.lookup m := by
  unfold processPiiField
  cases hscrut : rec.lookup name with
  | none => rfl
  | some v =>
    cases v with
    | str s => rfl
    | other => rfl
    | enc d =>
      dsimp only
      cases decryptFieldDict P kv d with
      | ok s => exact lookup_setField_ne rec name m _ hm
      | error e =>
        dsimp only
        cases tryFallbackDecryption P kv d with
        | none => exact lookup_setField_ne rec name m _ hm
        | some v =>
          dsimp only
          by_cases hv : v ≠ ""
          · rw [if_pos hv]
            exact lookup_setField_ne rec name m _ hm
          · rw [if_neg hv]
            exact lookup_setField_ne rec name m _ hm

theorem processPiiField_preserves_str (P : AesGcm) (kv : List (String × List Nat))
    (rec : List (String × FieldVal)) (name m s : String)
    (h : rec.lookup m = some (FieldVal.str s)) :
    (processPiiField P kv rec name).lookup m = some (FieldVal.str s) := by
  by_cases hm : m = name
  · subst hm
    unfold processPiiField
    rw [h]
    exact h
  · rw [processPiiField_lookup_ne P kv rec name m hm]
    exact h

/-- C10: `decrypt_pii_fields` never mutates its input (it is modelled as
— and the source makes it by `data.copy()` — a pure function of the
record); every field not named in the field list, and every named field
whose value is already a plain string, appears unchanged in the
result. -/
theorem decryptPiiFields_frame (P : AesGcm) (kv : List (String × List Nat))
    (data : List (String × FieldVal)) (fields : List String) :
    (∀ m, m ∉ fields → (decryptPiiFields P kv data fields).lookup m = data.lookup m) ∧
    (∀ m s, data.lookup m = some (FieldVal.str s) →
      (decryptPiiFields P kv data fields).lookup m = some (FieldVal.str s)) := by
  induction fields generalizing data with
  | nil => exact ⟨fun m _ => rfl, fun m s h => h⟩
  | cons a rest ih =>
    constructor
    · intro m hm
      have hma : m ≠ a := fun hh => hm (hh ▸ List.mem_cons_self a rest)
      have hmr : m ∉ rest := fun hh => hm (List.mem_cons_of_mem a hh)
      show (decryptPiiFields P kv (processPiiField P kv data a) rest).lookup m = _
      rw [(ih (processPiiField P kv data a)).1 m hmr]
      exact processPiiField_lookup_ne P kv data a m hma
    · intro m s h
      show (decryptPiiFields P kv (processPiiField P kv data a) rest).lookup m = _
      exact (ih _).2 m s (processPiiField_preserves_str P kv data a m s h)

/-- Witness for C10: a field outside the list survives unchanged. -/
theorem decryptPiiFields_frame_witness :
    (decryptPiiFields sumGcm [("current", [5])]
      [("a", FieldVal.str "keep"), ("email", FieldVal.other)] ["email"]).lookup "a"
      = some (FieldVal.str "keep") :=
  (decryptPiiFields_frame sumGcm [("current", [5])]
    [("a", FieldVal.str "keep"), ("email", FieldVal.other)] ["email"]).2 "a" "keep"
    (by decide)

end ProjectGA
